import Mathlib

/-!
Verification of the quaternion/rotation conversion suite of the
`quaternion` package (`src/__init__.py`).

The Python module builds on a C quaternion kernel (`numpy_quaternion`),
which supplies the quaternion scalar type with its arithmetic
(`norm` = squared norm, `exp`, `log`, `normalized`); those kernel
operations are not part of the Python source and are modelled from the
specification (§4.1).  All pure-Python logic (branching, formulas,
error raising, view bookkeeping) is translated directly from
`src/__init__.py`.  Numeric values are idealised as elements of a
linear ordered field (instantiated at `ℚ` for executable witnesses and
at `ℝ` where square roots and transcendental functions occur); the
tolerant comparator `allclose` instead works on an explicit IEEE-style
carrier with signed infinities and NaN, since its behaviour on those
values is the point of the claim about it.
-/

namespace NumpyQuaternion

/-- A quaternion `(w, x, y, z)`: scalar part `w`, vector part `(x, y, z)`.
Matches the storage order of the quaternion dtype. -/
structure Quat (α : Type) where
  w : α
  x : α
  y : α
  z : α
deriving DecidableEq

/-- A 3×3 matrix with explicitly named entries (row-major `mIJ`). -/
structure Mat3 (α : Type) where
  m00 : α
  m01 : α
  m02 : α
  m10 : α
  m11 : α
  m12 : α
  m20 : α
  m21 : α
  m22 : α
deriving DecidableEq

/-- The exception kinds raised by the module (spec §7). -/
inductive Err where
  | zeroDivision
  | valueError
  | indexError
deriving DecidableEq

variable {α : Type} [LinearOrderedField α]

/-- Modelled from the spec: the squared norm `w²+x²+y²+z²` (§4.1); this is
what the kernel's `q.norm()` / `np.norm` return.  The kernel itself is not
in the Python source. -/
def normSq (q : Quat α) : α := q.w ^ 2 + q.x ^ 2 + q.y ^ 2 + q.z ^ 2

/-- The simplified (unit-quaternion) rotation matrix of
`as_rotation_matrix`, lines 142-146 of the source: used when the squared
norm is within `_eps` of 1.  This is also the standard parametrisation of
rotation matrices by unit quaternions (spec §3, "Rotation Matrix"). -/
def rot_unit (q : Quat α) : Mat3 α :=
  ⟨1 - 2*(q.y^2 + q.z^2),   2*(q.x*q.y - q.z*q.w),      2*(q.x*q.z + q.y*q.w),
   2*(q.x*q.y + q.z*q.w),   1 - 2*(q.x^2 + q.z^2),      2*(q.y*q.z - q.x*q.w),
   2*(q.x*q.z - q.y*q.w),   2*(q.y*q.z + q.x*q.w),      1 - 2*(q.x^2 + q.y^2)⟩

/-- The general (dividing) rotation matrix of `as_rotation_matrix`,
lines 148-152 of the source; also the formula used elementwise by the
array path (lines 160-168). -/
def rot_general (q : Quat α) : Mat3 α :=
  let n := normSq q
  ⟨1 - 2*(q.y^2 + q.z^2)/n,   2*(q.x*q.y - q.z*q.w)/n,      2*(q.x*q.z + q.y*q.w)/n,
   2*(q.x*q.y + q.z*q.w)/n,   1 - 2*(q.x^2 + q.z^2)/n,      2*(q.y*q.z - q.x*q.w)/n,
   2*(q.x*q.z - q.y*q.w)/n,   2*(q.y*q.z + q.x*q.w)/n,      1 - 2*(q.x^2 + q.y^2)/n⟩

/-- The spec's exact entry table for quaternion → matrix (§4.3), general
form: each off-diagonal/diagonal term divided by the squared norm `n`. -/
def spec_matrix_general (q : Quat α) : Mat3 α :=
  let n := normSq q
  ⟨1 - 2*(q.y^2 + q.z^2)/n,   2*(q.x*q.y - q.z*q.w)/n,      2*(q.x*q.z + q.y*q.w)/n,
   2*(q.x*q.y + q.z*q.w)/n,   1 - 2*(q.x^2 + q.z^2)/n,      2*(q.y*q.z - q.x*q.w)/n,
   2*(q.x*q.z - q.y*q.w)/n,   2*(q.y*q.z + q.x*q.w)/n,      1 - 2*(q.x^2 + q.y^2)/n⟩

/-- The spec's simplified unit-quaternion entry table (§4.3): the same
table with the divisions by `n` removed. -/
def spec_matrix_unit (q : Quat α) : Mat3 α :=
  ⟨1 - 2*(q.y^2 + q.z^2),   2*(q.x*q.y - q.z*q.w),      2*(q.x*q.z + q.y*q.w),
   2*(q.x*q.y + q.z*q.w),   1 - 2*(q.x^2 + q.z^2),      2*(q.y*q.z - q.x*q.w),
   2*(q.x*q.z - q.y*q.w),   2*(q.y*q.z + q.x*q.w),      1 - 2*(q.x^2 + q.y^2)⟩

/-- Input to `as_rotation_matrix`: a single quaternion (`q.shape == ()`
and not an ndarray) or an array of quaternions (modelled 1-dimensional). -/
inductive QInput (α : Type) where
  | scalar (q : Quat α)
  | arr (l : List (Quat α))
deriving DecidableEq

/-- Output of `as_rotation_matrix`: one matrix or an array of matrices. -/
inductive MatOutput (α : Type) where
  | scalar (m : Mat3 α)
  | arr (ms : List (Mat3 α))
deriving DecidableEq

/-- `as_rotation_matrix` (source lines 137-169).  The scalar branch
computes the squared norm `n = q.norm()`, raises `ZeroDivisionError` when
`n == 0`, uses the simplified formulas when `abs(n-1) < _eps` and the
general formulas otherwise.  The array branch raises `ZeroDivisionError`
when any element has zero squared norm, and otherwise applies the general
formula elementwise.  `eps` stands for the kernel constant `_eps`. -/
def as_rotation_matrix (eps : α) (input : QInput α) : Except Err (MatOutput α) :=
  match input with
  | .scalar q =>
      let n := normSq q
      if n = 0 then .error .zeroDivision
      else if |n - 1| < eps then .ok (.scalar (rot_unit q))
      else .ok (.scalar (rot_general q))
  | .arr l =>
      if ∃ q ∈ l, normSq q = 0 then .error .zeroDivision
      else .ok (.arr (l.map rot_general))

/-- An N-dimensional quaternion array: a shape and a flat (row-major)
element list. -/
structure NDQuatArray (α : Type) where
  shape : List Nat
  data : List (Quat α)
deriving DecidableEq

/-- An N-dimensional float array: a shape and a flat element list. -/
structure NDFloatArray (α : Type) where
  shape : List Nat
  data : List α
deriving DecidableEq

/-- Input to `as_float_array`: a scalar quaternion or a quaternion array
(a zero-dimensional array has `shape = []`). -/
inductive QArrayInput (α : Type) where
  | scalar (q : Quat α)
  | arr (a : NDQuatArray α)
deriving DecidableEq

/-- Output of `as_quat_array`: a scalar quaternion (for shape-`(4,)`
input) or a quaternion array. -/
inductive QArrayOutput (α : Type) where
  | scalar (q : Quat α)
  | arr (a : NDQuatArray α)
deriving DecidableEq

/-- `np.atleast_1d`: a scalar or zero-dimensional input becomes a
1-element one-dimensional array; anything else is unchanged. -/
def atleast_1d (input : QArrayInput α) : NDQuatArray α :=
  match input with
  | .scalar q => ⟨[1], [q]⟩
  | .arr a => if a.shape = [] then ⟨[1], a.data⟩ else a

/-- The contiguous float storage of a quaternion list: each quaternion
contributes `(w, x, y, z)` in order (the dtype's memory layout, exposed
by `view(np.float)`). -/
def quatsToFloats : List (Quat α) → List α
  | [] => []
  | q :: rest => q.w :: q.x :: q.y :: q.z :: quatsToFloats rest

/-- Reinterpreting a flat float list as quaternions, four floats per
element (the effect of `view(np.quaternion)` on contiguous storage). -/
def floatsToQuats : List α → List (Quat α)
  | a :: b :: c :: d :: rest => ⟨a, b, c, d⟩ :: floatsToQuats rest
  | _ => []

/-- `as_float_array` (source lines 49-66): `np.atleast_1d`, then (dead)
scalar special case `if a.shape == (): return a.components`, then the
float view reshaped to `a.shape + (4,)`.  The special case is modelled
faithfully but is unreachable, because `atleast_1d` never returns an
empty shape. -/
def as_float_array (input : QArrayInput α) : NDFloatArray α :=
  let a := atleast_1d input
  if a.shape = [] then ⟨[4], quatsToFloats a.data⟩
  else ⟨a.shape ++ [4], quatsToFloats a.data⟩

/-- `as_quat_array` (source lines 69-99): shape-`(4,)` input becomes a
single scalar quaternion; otherwise the float data is viewed as
quaternions, which requires a last axis whose size is a multiple of 4
(a zero-dimensional input, or one whose last axis is not a multiple of
4, makes the view raise `ValueError`); the result is reshaped to
`shape[:-1]` when the last axis is exactly 4 and to
`shape[:-1] + (last/4,)` otherwise. -/
def as_quat_array (a : NDFloatArray α) : Except Err (QArrayOutput α) :=
  if a.shape = [4] then
    .ok (.scalar ⟨a.data.getD 0 0, a.data.getD 1 0, a.data.getD 2 0, a.data.getD 3 0⟩)
  else
    match a.shape.getLast? with
    | none => .error .valueError
    | some last =>
        if last % 4 ≠ 0 then .error .valueError
        else if last = 4 then .ok (.arr ⟨a.shape.dropLast, floatsToQuats a.data⟩)
        else .ok (.arr ⟨a.shape.dropLast ++ [last / 4], floatsToQuats a.data⟩)

/-- An IEEE-style double: a finite value (idealised as a rational), a
signed infinity, or NaN.  `allclose` is specified through its handling of
exactly these cases. -/
inductive FP where
  | fin (q : ℚ)
  | pinf
  | ninf
  | nan
deriving DecidableEq

/-- `np.isinf`. -/
def FP.isinf : FP → Bool
  | .pinf => true
  | .ninf => true
  | _ => false

/-- IEEE subtraction lifted to the carrier: NaN propagates, same-signed
infinities cancel to NaN, an infinity dominates a finite value. -/
def FP.sub : FP → FP → FP
  | .nan, _ => .nan
  | _, .nan => .nan
  | .fin a, .fin b => .fin (a - b)
  | .pinf, .pinf => .nan
  | .pinf, _ => .pinf
  | .ninf, .ninf => .nan
  | .ninf, _ => .ninf
  | .fin _, .pinf => .ninf
  | .fin _, .ninf => .pinf

/-- IEEE absolute value: both infinities map to `+inf`, NaN stays NaN. -/
def FP.abs : FP → FP
  | .fin a => .fin |a|
  | .pinf => .pinf
  | .ninf => .pinf
  | .nan => .nan

/-- Multiplication by the finite scalar `rtol`: `0 * inf` is NaN. -/
def FP.smul (r : ℚ) : FP → FP
  | .fin a => .fin (r * a)
  | .pinf => if 0 < r then .pinf else if r < 0 then .ninf else .nan
  | .ninf => if 0 < r then .ninf else if r < 0 then .pinf else .nan
  | .nan => .nan

/-- Addition of the finite scalar `atol`: infinities absorb, NaN
propagates. -/
def FP.addConst (t : ℚ) : FP → FP
  | .fin a => .fin (t + a)
  | .pinf => .pinf
  | .ninf => .ninf
  | .nan => .nan

/-- IEEE `<=`: any comparison with NaN is false. -/
def FP.le : FP → FP → Bool
  | .nan, _ => false
  | _, .nan => false
  | .fin a, .fin b => decide (a ≤ b)
  | .ninf, _ => true
  | _, .pinf => true
  | .pinf, _ => false
  | .fin _, .ninf => false

/-- IEEE `==`: NaN is equal to nothing, infinities are equal when their
signs agree. -/
def FP.feq : FP → FP → Bool
  | .fin a, .fin b => decide (a = b)
  | .pinf, .pinf => true
  | .ninf, .ninf => true
  | _, _ => false

/-- The elementwise tolerance test of `allclose` (source line 568):
`abs(x - y) <= atol + rtol * abs(y)` under IEEE semantics. -/
def tol_ok (rtol atol : ℚ) (p : FP × FP) : Bool :=
  FP.le (FP.abs (FP.sub p.1 p.2)) (FP.addConst atol (FP.smul rtol (FP.abs p.2)))

/-- `allclose` (source lines 538-578) on same-shape (flattened) inputs:
if either side contains an infinity, first require the infinity masks to
coincide, then require the infinite entries to compare equal (which
checks their signs); the positions infinite in `x` are then removed from
both sides and the remaining entries pass through the tolerance test.
The `verbose` printing changes no returned value and is omitted. -/
def allclose (a b : List FP) (rtol atol : ℚ) : Bool :=
  let pairs := a.zip b
  if a.any FP.isinf || b.any FP.isinf then
    if pairs.all (fun p => p.1.isinf == p.2.isinf) then
      if (pairs.filter (fun p => p.1.isinf)).all (fun p => FP.feq p.1 p.2) then
        (pairs.filter (fun p => ! p.1.isinf)).all (tol_ok rtol atol)
      else false
    else false
  else pairs.all (tol_ok rtol atol)

/-- Python tuple indexing `shape[axis]` with negative-index wraparound:
out-of-range access raises `IndexError`, modelled as `none`. -/
def py_get (s : List Nat) (ax : Int) : Option Nat :=
  let n : Int := s.length
  let j : Int := if ax < 0 then ax + n else ax
  if 0 ≤ j ∧ j < n then some (s.getD j.toNat 0) else none

/-- Row/column access into a `Mat3` by numeric index (row-major). -/
def mat3_get (m : Mat3 α) (r k : Nat) : α :=
  if r = 0 then (if k = 0 then m.m00 else if k = 1 then m.m01 else m.m02)
  else if r = 1 then (if k = 0 then m.m10 else if k = 1 then m.m11 else m.m12)
  else (if k = 0 then m.m20 else if k = 1 then m.m21 else m.m22)

/-- The `np.einsum` contraction of `rotate_vectors` (source lines
463-470): each rotation matrix is contracted against `v` over the
selected length-3 axis; output shape is `R.shape ++ v.shape` with the
selected axis replaced by the matrix row axis (also length 3).  Indexing
is row-major with `inner` the product of the axes after the selected
one. -/
def contract_rotate (ms : List (Mat3 α)) (v : NDFloatArray α) (ax : Int) : NDFloatArray α :=
  let nd : Int := v.shape.length
  let aN : Nat := (if ax < 0 then ax + nd else ax).toNat
  let inner : Nat := (v.shape.drop (aN + 1)).prod
  let total : Nat := v.shape.prod
  ⟨ms.length :: v.shape,
   ms.foldr (fun m acc =>
     ((List.range total).map (fun p =>
        let o := p / (3 * inner)
        let r := (p / inner) % 3
        let i := p % inner
        mat3_get m r 0 * v.data.getD ((o * 3 + 0) * inner + i) 0 +
        mat3_get m r 1 * v.data.getD ((o * 3 + 1) * inner + i) 0 +
        mat3_get m r 2 * v.data.getD ((o * 3 + 2) * inner + i) 0)) ++ acc) []⟩

/-- `rotate_vectors` (source lines 420-470): validates that `v` has at
least one dimension and some length-3 dimension (`ValueError`), indexes
`v.shape` at `axis` (an out-of-range `axis` raises `IndexError`),
requires the selected axis to have length 3 (`ValueError`), then
converts the quaternions to matrices (which may raise
`ZeroDivisionError`) and contracts.  `eps` stands for the kernel
constant `_eps` used by `as_rotation_matrix`. -/
def rotate_vectors (eps : α) (R : List (Quat α)) (v : NDFloatArray α) (ax : Int) :
    Except Err (NDFloatArray α) :=
  if v.shape.length < 1 ∨ ¬ (3 ∈ v.shape) then .error .valueError
  else
    match py_get v.shape ax with
    | none => .error .indexError
    | some len =>
        if len ≠ 3 then .error .valueError
        else
          match as_rotation_matrix eps (QInput.arr R) with
          | .error e => .error e
          | .ok (.arr ms) => .ok (contract_rotate ms v ax)
          | .ok (.scalar m) => .ok (contract_rotate [m] v ax)

/-- Modelled from the spec: the (Euclidean) norm `sqrt(w²+x²+y²+z²)`
(§4.1, "norm (square root)"); the kernel's `abs`. -/
noncomputable def qabs (q : Quat ℝ) : ℝ := Real.sqrt (normSq q)

/-- Two-argument arctangent in the numpy argument order `atan2(y, x)`:
the principal argument of the complex number `x + i y`. -/
noncomputable def atan2 (y x : ℝ) : ℝ := Complex.arg ⟨x, y⟩

/-- Modelled from the spec: the kernel's quaternion natural logarithm
(§4.1, principal branch): scalar part `log ‖q‖`, vector part the unit
vector direction scaled by the half-angle `atan2(‖v‖, w)`; pure-scalar
quaternions have zero vector part. -/
noncomputable def qlog (q : Quat ℝ) : Quat ℝ :=
  let vn := Real.sqrt (q.x ^ 2 + q.y ^ 2 + q.z ^ 2)
  if vn = 0 then ⟨Real.log (qabs q), 0, 0, 0⟩
  else
    let f := atan2 vn q.w / vn
    ⟨Real.log (qabs q), f * q.x, f * q.y, f * q.z⟩

/-- Modelled from the spec: the kernel's quaternion exponential (§4.1):
`exp(q) = e^w · (cos ‖v‖, sin ‖v‖ · v̂)`, continuously extended to the
zero vector part (where `sin ‖v‖ · v̂ → 0`). -/
noncomputable def qexp (q : Quat ℝ) : Quat ℝ :=
  let vn := Real.sqrt (q.x ^ 2 + q.y ^ 2 + q.z ^ 2)
  if vn = 0 then ⟨Real.exp q.w, 0, 0, 0⟩
  else ⟨Real.exp q.w * Real.cos vn,
        Real.exp q.w * Real.sin vn * (q.x / vn),
        Real.exp q.w * Real.sin vn * (q.y / vn),
        Real.exp q.w * Real.sin vn * (q.z / vn)⟩

/-- IEEE division producing a non-finite result exactly when the divisor
is zero (`0/0` is NaN; the only zero divisor reached below is `‖q‖ = 0`,
where every numerator is also zero). -/
noncomputable def divO (x y : ℝ) : Option ℝ :=
  if y = 0 then none else some (x / y)

/-- Modelled from the spec: the kernel's `np.normalized`, dividing each
component by the norm (§4.1); at zero norm the componentwise `0/0`
produces NaN components, each modelled as `none`. -/
noncomputable def np_normalized (q : Quat ℝ) : Quat (Option ℝ) :=
  ⟨divO q.w (qabs q), divO q.x (qabs q), divO q.y (qabs q), divO q.z (qabs q)⟩

/-- The spec's `normalize(q)`: divide by the norm (total junk-value form
used to state what the defined outputs of `as_rotation_vector` hold). -/
noncomputable def spec_normalize (q : Quat ℝ) : Quat ℝ :=
  ⟨q.w / qabs q, q.x / qabs q, q.y / qabs q, q.z / qabs q⟩

/-- Componentwise scalar multiple (the `2 *` of `2*np.log(...)`). -/
def qscale (c : α) (q : Quat α) : Quat α := ⟨c * q.w, c * q.x, c * q.y, c * q.z⟩

/-- Modelled from the spec: the kernel's `np.log` lifted to NaN-able
quaternions — a NaN in any component makes every output component NaN,
otherwise the quaternion logarithm applies. -/
noncomputable def qlogO (q : Quat (Option ℝ)) : Quat (Option ℝ) :=
  match q.w, q.x, q.y, q.z with
  | some a, some b, some c, some d =>
      ⟨some (qlog ⟨a, b, c, d⟩).w, some (qlog ⟨a, b, c, d⟩).x,
       some (qlog ⟨a, b, c, d⟩).y, some (qlog ⟨a, b, c, d⟩).z⟩
  | _, _, _, _ => ⟨none, none, none, none⟩

/-- Scalar multiplication on NaN-able quaternions (`2 * NaN = NaN`). -/
noncomputable def qscaleO (c : ℝ) (q : Quat (Option ℝ)) : Quat (Option ℝ) :=
  ⟨q.w.map (fun t => c * t), q.x.map (fun t => c * t),
   q.y.map (fun t => c * t), q.z.map (fun t => c * t)⟩

/-- The trailing-axis slice `[..., 1:]` on the flat data of the
`shape + (4,)` float view produced by `as_float_array`: the scalar
component of each group of four is dropped, leaving the vector part. -/
def drop_scalar_components : List α → List α
  | _ :: b :: c :: d :: rest => b :: c :: d :: drop_scalar_components rest
  | _ => []

/-- The slice `[..., 1:]` applied to a `shape + (4,)` float view: the
trailing axis of size 4 becomes size 3 and the first entry of each
group of four is dropped. -/
def slice_vector_part (a : NDFloatArray α) : NDFloatArray α :=
  ⟨a.shape.dropLast ++ [3], drop_scalar_components a.data⟩

/-- The spec's elementwise description of the rotation-vector data: for
each quaternion, the three components of the vector part of
`2·log(normalize(q))`, or three NaNs when the norm is zero. -/
noncomputable def spec_rotation_vector_data : List (Quat ℝ) → List (Option ℝ)
  | [] => []
  | q :: rest =>
      (if normSq q = 0 then [none, none, none]
       else [some ((qscale 2 (qlog (spec_normalize q))).x),
             some ((qscale 2 (qlog (spec_normalize q))).y),
             some ((qscale 2 (qlog (spec_normalize q))).z)]) ++
        spec_rotation_vector_data rest

/-- `as_rotation_vector` (source line 329):
`as_float_array(2*np.log(np.normalized(q)))[..., 1:]`.  `normalized`,
`log` and the scaling apply elementwise, preserving the scalar/array
structure of the input; `as_float_array` then performs its `atleast_1d`
promotion and exposes the `shape + (4,)` float view, of which the slice
keeps the vector part.  A NaN produced by `normalized` at a zero-norm
element propagates into that element's three output components. -/
noncomputable def as_rotation_vector (input : QArrayInput ℝ) : NDFloatArray (Option ℝ) :=
  let logged : QArrayInput (Option ℝ) :=
    match input with
    | .scalar q => .scalar (qscaleO 2 (qlogO (np_normalized q)))
    | .arr a => .arr ⟨a.shape, a.data.map (fun q => qscaleO 2 (qlogO (np_normalized q)))⟩
  slice_vector_part (as_float_array logged)

/-- `from_rotation_vector` (source lines 332-352) on a single 3-vector:
build the pure-vector quaternion `(0, v/2)` and exponentiate. -/
noncomputable def from_rotation_vector (v : ℝ × ℝ × ℝ) : Quat ℝ :=
  qexp ⟨0, v.1 / 2, v.2.1 / 2, v.2.2 / 2⟩

/-- `as_euler_angles` (source lines 385-391), written exactly as the code
reads its inputs: through the float view `q[..., i]` of the quaternion
and the squared norm `n = np.norm(q)`. -/
noncomputable def as_euler_angles (q : Quat ℝ) : ℝ × ℝ × ℝ :=
  let qf := quatsToFloats [q]
  let n := normSq q
  (atan2 (qf.getD 3 0) (qf.getD 0 0) + atan2 (-(qf.getD 1 0)) (qf.getD 2 0),
   2 * Real.arccos (Real.sqrt ((qf.getD 0 0 ^ 2 + qf.getD 3 0 ^ 2) / n)),
   atan2 (qf.getD 3 0) (qf.getD 0 0) - atan2 (-(qf.getD 1 0)) (qf.getD 2 0))

/-- The array path of `as_euler_angles`: the same arctangent/arccosine
formulas applied elementwise over the leading shape. -/
noncomputable def as_euler_angles_array (l : List (Quat ℝ)) : List (ℝ × ℝ × ℝ) :=
  l.map as_euler_angles

/-- The spec's Euler-angle formula triple (§4.4), in terms of the named
components `(w, x, y, z)` and the squared norm `n`. -/
noncomputable def spec_euler_angles (q : Quat ℝ) : ℝ × ℝ × ℝ :=
  (atan2 q.z q.w + atan2 (-q.x) q.y,
   2 * Real.arccos (Real.sqrt ((q.w ^ 2 + q.z ^ 2) / normSq q)),
   atan2 q.z q.w - atan2 (-q.x) q.y)

/-- A 4-vector (an eigenvector candidate of the Bar-Itzhack matrix, or
the unnormalized quaternion candidate of the direct path). -/
structure Vec4 where
  c0 : ℝ
  c1 : ℝ
  c2 : ℝ
  c3 : ℝ

/-- A symmetric 4×4 matrix with explicitly named entries. -/
structure Mat4 where
  k00 : ℝ
  k01 : ℝ
  k02 : ℝ
  k03 : ℝ
  k10 : ℝ
  k11 : ℝ
  k12 : ℝ
  k13 : ℝ
  k20 : ℝ
  k21 : ℝ
  k22 : ℝ
  k23 : ℝ
  k30 : ℝ
  k31 : ℝ
  k32 : ℝ
  k33 : ℝ

/-- The Bar-Itzhack matrix `K3` of `from_rotation_matrix` (source lines
226-242): sums/differences of the rotation-matrix entries divided by 3,
with the lower triangle mirroring the upper (the code passes `K3.T` to
the eigensolver, which is the same matrix by this symmetry). -/
noncomputable def K3_of (m : Mat3 ℝ) : Mat4 where
  k00 := (m.m00 - m.m11 - m.m22) / 3
  k01 := (m.m10 + m.m01) / 3
  k02 := (m.m20 + m.m02) / 3
  k03 := (m.m12 - m.m21) / 3
  k10 := (m.m10 + m.m01) / 3
  k11 := (m.m11 - m.m00 - m.m22) / 3
  k12 := (m.m21 + m.m12) / 3
  k13 := (m.m20 - m.m02) / 3
  k20 := (m.m20 + m.m02) / 3
  k21 := (m.m21 + m.m12) / 3
  k22 := (m.m22 - m.m00 - m.m11) / 3
  k23 := (m.m01 - m.m10) / 3
  k30 := (m.m12 - m.m21) / 3
  k31 := (m.m20 - m.m02) / 3
  k32 := (m.m01 - m.m10) / 3
  k33 := (m.m00 + m.m11 + m.m22) / 3

/-- Matrix-vector product for the 4×4 matrix. -/
noncomputable def mulVec4 (K : Mat4) (v : Vec4) : Vec4 :=
  ⟨K.k00 * v.c0 + K.k01 * v.c1 + K.k02 * v.c2 + K.k03 * v.c3,
   K.k10 * v.c0 + K.k11 * v.c1 + K.k12 * v.c2 + K.k13 * v.c3,
   K.k20 * v.c0 + K.k21 * v.c1 + K.k22 * v.c2 + K.k23 * v.c3,
   K.k30 * v.c0 + K.k31 * v.c1 + K.k32 * v.c2 + K.k33 * v.c3⟩

/-- Scalar multiple of a 4-vector. -/
noncomputable def smul4 (t : ℝ) (v : Vec4) : Vec4 := ⟨t * v.c0, t * v.c1, t * v.c2, t * v.c3⟩

/-- Sum of two 4-vectors. -/
noncomputable def addV4 (u v : Vec4) : Vec4 := ⟨u.c0 + v.c0, u.c1 + v.c1, u.c2 + v.c2, u.c3 + v.c3⟩

/-- Euclidean inner product of 4-vectors. -/
noncomputable def dot4 (u v : Vec4) : ℝ := u.c0 * v.c0 + u.c1 * v.c1 + u.c2 * v.c2 + u.c3 * v.c3

/-- Squared Euclidean norm of a 4-vector. -/
noncomputable def normSq4 (v : Vec4) : ℝ := v.c0 ^ 2 + v.c1 ^ 2 + v.c2 ^ 2 + v.c3 ^ 2

/-- The eigen path of `from_rotation_matrix` (source lines 244-249)
applied to the top eigenvector returned by the host eigensolver: the
quaternion's scalar part is the eigenvector's last component and its
vector part is the negated first three components. -/
noncomputable def from_rotation_matrix_eig (v : Vec4) : Quat ℝ := ⟨v.c3, -v.c0, -v.c1, -v.c2⟩

/-- The four diagonal candidates of the direct path (source lines
260-264): `(m00, m11, m22, trace)`. -/
noncomputable def diagonals (m : Mat3 ℝ) : Vec4 := ⟨m.m00, m.m11, m.m22, m.m00 + m.m11 + m.m22⟩

/-- `np.argmax` over the four candidates: the first index attaining the
maximum (source line 266). -/
noncomputable def argmax4 (d : Vec4) : Nat :=
  if d.c1 ≤ d.c0 ∧ d.c2 ≤ d.c0 ∧ d.c3 ≤ d.c0 then 0
  else if d.c2 ≤ d.c1 ∧ d.c3 ≤ d.c1 then 1
  else if d.c3 ≤ d.c2 then 2
  else 3

/-- The unnormalized quaternion candidate of the direct path: one of the
four closed-form branches (source lines 269-304), selected by the largest
diagonal candidate. -/
noncomputable def direct_candidate (m : Mat3 ℝ) : Vec4 :=
  match argmax4 (diagonals m) with
  | 0 => ⟨m.m21 - m.m12, 1 + m.m00 - m.m11 - m.m22, m.m01 + m.m10, m.m02 + m.m20⟩
  | 1 => ⟨m.m02 - m.m20, m.m10 + m.m01, 1 - m.m00 + m.m11 - m.m22, m.m12 + m.m21⟩
  | 2 => ⟨m.m10 - m.m01, m.m20 + m.m02, m.m21 + m.m12, 1 - m.m00 - m.m11 + m.m22⟩
  | _ => ⟨1 + m.m00 + m.m11 + m.m22, m.m21 - m.m12, m.m02 - m.m20, m.m10 - m.m01⟩

/-- The direct (Markley) path of `from_rotation_matrix` (source lines
259-308): the selected candidate normalized by its Euclidean norm
(`np.linalg.norm`, line 306). -/
noncomputable def from_rotation_matrix_direct (m : Mat3 ℝ) : Quat ℝ :=
  let c := direct_candidate m
  let nn := Real.sqrt (normSq4 c)
  ⟨c.c0 / nn, c.c1 / nn, c.c2 / nn, c.c3 / nn⟩

/-- Componentwise negation (the global sign ambiguity `q` vs `-q`). -/
def qneg (q : Quat α) : Quat α := ⟨-q.w, -q.x, -q.y, -q.z⟩

/-- C1: for a scalar quaternion of nonzero squared norm `n`,
`as_rotation_matrix` returns exactly the spec's entry table: the
simplified unit formulas when `|n - 1| < eps`, the general `/n` formulas
otherwise. -/
theorem c1_scalar_rotation_matrix (eps : ℚ) (q : Quat ℚ) (h : normSq q ≠ 0) :
    as_rotation_matrix eps (QInput.scalar q) =
      Except.ok (MatOutput.scalar
        (if |normSq q - 1| < eps then spec_matrix_unit q else spec_matrix_general q)) := by
  unfold as_rotation_matrix
  simp only [if_neg h]
  by_cases hb : |normSq q - 1| < eps
  · simp only [if_pos hb]
    rfl
  · simp only [if_neg hb]
    rfl

theorem c1_scalar_rotation_matrix_witness :
    normSq (⟨2, 0, 0, 0⟩ : Quat ℚ) ≠ 0 ∧
      as_rotation_matrix (1/1000) (QInput.scalar (⟨2, 0, 0, 0⟩ : Quat ℚ)) =
        Except.ok (MatOutput.scalar
          (if |normSq (⟨2, 0, 0, 0⟩ : Quat ℚ) - 1| < (1/1000 : ℚ)
           then spec_matrix_unit (⟨2, 0, 0, 0⟩ : Quat ℚ)
           else spec_matrix_general (⟨2, 0, 0, 0⟩ : Quat ℚ))) :=
  ⟨by norm_num [normSq], c1_scalar_rotation_matrix (1/1000) ⟨2, 0, 0, 0⟩ (by norm_num [normSq])⟩

/-- C2: `as_rotation_matrix` raises `ZeroDivisionError` iff the scalar
input has zero (squared) norm, or, for array input, some element has zero
norm; and the array call is atomic: it returns the complete output array
exactly when no element has zero norm (the zero-norm check precedes all
entry computation). -/
theorem c2_zero_norm_error (eps : ℚ) (q : Quat ℚ) (l : List (Quat ℚ)) :
    (as_rotation_matrix eps (QInput.scalar q) = Except.error Err.zeroDivision ↔
      normSq q = 0) ∧
    (as_rotation_matrix eps (QInput.arr l) = Except.error Err.zeroDivision ↔
      ∃ p ∈ l, normSq p = 0) ∧
    ((¬ ∃ p ∈ l, normSq p = 0) ↔
      as_rotation_matrix eps (QInput.arr l) = Except.ok (MatOutput.arr (l.map rot_general))) := by
  refine ⟨?_, ?_, ?_⟩
  · unfold as_rotation_matrix
    by_cases h : normSq q = 0
    · simp [h]
    · simp only [if_neg h]
      by_cases hb : |normSq q - 1| < eps <;> simp [hb, h]
  · unfold as_rotation_matrix
    by_cases h : ∃ p ∈ l, normSq p = 0 <;> simp [h]
  · unfold as_rotation_matrix
    by_cases h : ∃ p ∈ l, normSq p = 0 <;> simp [h]

omit [LinearOrderedField α] in
/-- Viewing quaternion storage as floats and regrouping by four recovers
the original elements. -/
theorem floatsToQuats_quatsToFloats (l : List (Quat α)) :
    floatsToQuats (quatsToFloats l) = l := by
  induction l with
  | nil => rfl
  | cons q rest ih => simp [quatsToFloats, floatsToQuats, ih]

/-- C4: the round trip `as_quat_array (as_float_array a)` returns an
array with exactly the original elements (elementwise identity); the
shape is the `atleast_1d` promotion of the original shape, i.e. the
original shape whenever the input has at least one dimension. -/
theorem c4_view_bridge_round_trip (a : NDQuatArray ℚ) :
    as_quat_array (as_float_array (QArrayInput.arr a)) =
      Except.ok (QArrayOutput.arr ⟨if a.shape = [] then [1] else a.shape, a.data⟩) := by
  by_cases hsh : a.shape = []
  · simp only [as_float_array, atleast_1d, hsh, if_pos rfl, reduceIte]
    simp [as_quat_array, floatsToQuats_quatsToFloats]
  · simp only [as_float_array, atleast_1d, if_neg hsh]
    have hne : ¬ (a.shape ++ [4] = [4]) := by
      intro h
      apply hsh
      have hl := congrArg List.length h
      simp at hl
      exact hl
    simp only [as_quat_array, if_neg hne, List.getLast?_concat]
    simp [List.dropLast_concat, floatsToQuats_quatsToFloats, hsh]

/-- C5: evaluated at a scalar (0-dimensional) quaternion input,
`as_float_array` returns a `(1,4)`-shaped array, not the `(4,)`-shaped
component vector the spec requires: `np.atleast_1d` promotes the scalar
before the scalar special case can fire, so that branch is dead code. -/
theorem c5_scalar_float_array_shape :
    as_float_array (QArrayInput.scalar (⟨1, 2, 3, 4⟩ : Quat ℚ)) =
        ⟨[1, 4], [1, 2, 3, 4]⟩ ∧
      (as_float_array (QArrayInput.scalar (⟨1, 2, 3, 4⟩ : Quat ℚ))).shape ≠ [4] := by
  constructor
  · rfl
  · intro h
    simp [as_float_array, atleast_1d] at h

/-- IEEE equality only holds between genuinely equal non-NaN values. -/
theorem FP.eq_of_feq {u v : FP} (h : FP.feq u v = true) : u = v := by
  cases u <;> cases v <;> simp_all [FP.feq]

/-- A non-NaN value (in particular an infinity) compares equal to
itself. -/
theorem FP.feq_self {u : FP} (h : u.isinf = true) : FP.feq u u = true := by
  cases u <;> simp_all [FP.feq, FP.isinf]

/-- C6: `allclose` returns true iff (1) infinities occupy exactly
matching positions with matching signs (so the paired values are equal),
and (2) every remaining element passes `|a-b| <= atol + rtol*|b|`, where
any comparison involving NaN fails. -/
theorem c6_allclose_iff (a b : List FP) (rtol atol : ℚ) (hlen : a.length = b.length) :
    allclose a b rtol atol = true ↔
      ((∀ p ∈ a.zip b, (p.1.isinf = true ∨ p.2.isinf = true) → p.1 = p.2) ∧
       (∀ p ∈ a.zip b, p.1.isinf = false → tol_ok rtol atol p = true)) := by
  unfold allclose
  by_cases hinf : (a.any FP.isinf || b.any FP.isinf) = true
  · simp only [if_pos hinf]
    by_cases hmask : ((a.zip b).all fun p => p.1.isinf == p.2.isinf) = true
    · simp only [if_pos hmask]
      rw [List.all_eq_true] at hmask
      by_cases hsign :
          (((a.zip b).filter fun p => p.1.isinf).all fun p => FP.feq p.1 p.2) = true
      · simp only [if_pos hsign]
        rw [List.all_eq_true] at hsign
        have hfst : ∀ p ∈ a.zip b, (p.1.isinf = true ∨ p.2.isinf = true) → p.1 = p.2 := by
          intro p hp hor
          have hm := hmask p hp
          rw [beq_iff_eq] at hm
          have h1 : p.1.isinf = true := by
            rcases hor with h | h
            · exact h
            · rw [hm]; exact h
          exact FP.eq_of_feq (hsign p (List.mem_filter.mpr ⟨hp, h1⟩))
        rw [List.all_eq_true]
        constructor
        · intro hall
          refine ⟨hfst, ?_⟩
          intro p hp h1
          exact hall p (List.mem_filter.mpr ⟨hp, by simp [h1]⟩)
        · intro h p hp
          have hpm := List.mem_filter.mp hp
          exact h.2 p hpm.1 (by simpa using hpm.2)
      · simp only [if_neg hsign]
        constructor
        · intro h; simp at h
        · intro h
          exfalso
          rw [List.all_eq_true] at hsign
          push_neg at hsign
          obtain ⟨p, hp, hfeq⟩ := hsign
          have hpm := List.mem_filter.mp hp
          have h1 : p.1.isinf = true := hpm.2
          have heq := h.1 p hpm.1 (Or.inl h1)
          exact hfeq (by rw [heq]; exact FP.feq_self (heq ▸ h1))
    · simp only [if_neg hmask]
      constructor
      · intro h; simp at h
      · intro h
        exfalso
        rw [List.all_eq_true] at hmask
        push_neg at hmask
        obtain ⟨p, hp, hne⟩ := hmask
        have hne' : p.1.isinf ≠ p.2.isinf := by
          intro he; exact hne (by simp [he])
        have hor : p.1.isinf = true ∨ p.2.isinf = true := by
          cases h1 : p.1.isinf <;> cases h2 : p.2.isinf <;> simp_all
        exact hne' (by rw [h.1 p hp hor])
  · simp only [if_neg hinf]
    simp only [Bool.or_eq_true, not_or] at hinf
    obtain ⟨ha, hb⟩ := hinf
    rw [List.any_eq_true] at ha hb
    push_neg at ha hb
    rw [List.all_eq_true]
    constructor
    · intro hall
      constructor
      · rintro ⟨u, v⟩ hp hor
        obtain ⟨hu, hv⟩ := List.of_mem_zip hp
        rcases hor with h | h
        · exact absurd h (ha u hu)
        · exact absurd h (hb v hv)
      · intro p hp _
        exact hall p hp
    · rintro h ⟨u, v⟩ hp
      apply h.2 (u, v) hp
      obtain ⟨hu, _⟩ := List.of_mem_zip hp
      simpa using ha u hu

theorem c6_allclose_iff_witness :
    ([FP.fin 1, FP.nan].length = [FP.fin 1, FP.nan].length) ∧
      (allclose [FP.fin 1, FP.nan] [FP.fin 1, FP.nan] 0 0 = true ↔
        ((∀ p ∈ [FP.fin 1, FP.nan].zip [FP.fin 1, FP.nan],
            (p.1.isinf = true ∨ p.2.isinf = true) → p.1 = p.2) ∧
         (∀ p ∈ [FP.fin 1, FP.nan].zip [FP.fin 1, FP.nan],
            p.1.isinf = false → tol_ok 0 0 p = true))) :=
  ⟨rfl, c6_allclose_iff _ _ _ _ rfl⟩

/-- A successful `shape[axis]` lookup returns an element of the shape. -/
theorem py_get_mem {s : List Nat} {ax : Int} {k : Nat} (h : py_get s ax = some k) :
    k ∈ s := by
  by_cases hax : ax < 0 <;> simp only [py_get, hax, reduceIte] at h
  · split at h
    · next hc =>
      have hj : (ax + (s.length : Int)).toNat < s.length := by omega
      rw [Option.some_inj] at h
      rw [List.getD_eq_getElem _ _ hj] at h
      exact h ▸ List.getElem_mem hj
    · exact absurd h (by simp)
  · split at h
    · next hc =>
      have hj : ax.toNat < s.length := by omega
      rw [Option.some_inj] at h
      rw [List.getD_eq_getElem _ _ hj] at h
      exact h ▸ List.getElem_mem hj
    · exact absurd h (by simp)

/-- C9: `rotate_vectors` raises `ValueError` iff `v` has fewer than one
dimension or the selected axis does not have length 3 (assuming the axis
itself is in range whenever `v` has at least one dimension); validation
precedes all matrix computation, so no rotation output accompanies the
error. -/
theorem c9_rotate_vectors_validation (eps : ℚ) (R : List (Quat ℚ)) (v : NDFloatArray ℚ)
    (ax : Int) (h : v.shape.length < 1 ∨ py_get v.shape ax ≠ none) :
    rotate_vectors eps R v ax = Except.error Err.valueError ↔
      (v.shape.length < 1 ∨ py_get v.shape ax ≠ some 3) := by
  unfold rotate_vectors
  by_cases h0 : v.shape.length < 1 ∨ ¬ (3 ∈ v.shape)
  · simp only [if_pos h0]
    constructor
    · intro _
      rcases h0 with hl | hmem
      · exact Or.inl hl
      · right
        intro hpg
        exact hmem (py_get_mem hpg)
    · intro _; trivial
  · simp only [if_neg h0]
    push_neg at h0
    obtain ⟨hlen1, hmem⟩ := h0
    rcases hpg : py_get v.shape ax with _ | len
    · rcases h with hl | hn
      · omega
      · exact absurd hpg hn
    · simp only [hpg]
      have hne : v.shape ≠ [] := by
        intro hh
        rw [hh] at hlen1
        simp at hlen1
      by_cases hl3 : len = 3
      · subst hl3
        rw [if_neg (fun hh => hh rfl)]
        have harr : as_rotation_matrix eps (QInput.arr R) = Except.error Err.zeroDivision ∨
            as_rotation_matrix eps (QInput.arr R) =
              Except.ok (MatOutput.arr (R.map rot_general)) := by
          unfold as_rotation_matrix
          by_cases hz : ∃ q ∈ R, normSq q = 0 <;> simp [hz]
        rcases harr with he | hok
        · rw [he]
          simp [hne, hpg]
        · rw [hok]
          simp [hne, hpg]
      · simp only [if_pos hl3, ne_eq]
        simp [hne, hpg, hl3]

theorem c9_rotate_vectors_validation_witness :
    ((([2] : List Nat).length < 1 ∨ py_get [2] 0 ≠ none)) ∧
      (rotate_vectors (0 : ℚ) [] ⟨[2], [0, 0]⟩ 0 = Except.error Err.valueError ↔
        (([2] : List Nat).length < 1 ∨ py_get [2] 0 ≠ some 3)) :=
  ⟨Or.inr (by decide),
    c9_rotate_vectors_validation 0 [] ⟨[2], [0, 0]⟩ 0 (Or.inr (by decide))⟩

/-- The elementwise pipeline `2·log(normalized(·))` produces an all-NaN
quaternion exactly at zero norm, and otherwise the scaled logarithm of
the normalization. -/
theorem two_log_normalized_elem (q : Quat ℝ) :
    qscaleO 2 (qlogO (np_normalized q)) =
      if normSq q = 0 then (⟨none, none, none, none⟩ : Quat (Option ℝ))
      else ⟨some ((qscale 2 (qlog (spec_normalize q))).w),
            some ((qscale 2 (qlog (spec_normalize q))).x),
            some ((qscale 2 (qlog (spec_normalize q))).y),
            some ((qscale 2 (qlog (spec_normalize q))).z)⟩ := by
  by_cases h : normSq q = 0
  · rw [if_pos h]
    have habs : qabs q = 0 := by rw [qabs, h, Real.sqrt_zero]
    simp [np_normalized, divO, habs, qlogO, qscaleO]
  · rw [if_neg h]
    have hnn : (0 : ℝ) ≤ normSq q := by unfold normSq; positivity
    have hpos : 0 < normSq q := lt_of_le_of_ne hnn (Ne.symm h)
    have habs : qabs q ≠ 0 := by
      rw [qabs]
      exact ne_of_gt (Real.sqrt_pos.mpr hpos)
    simp [np_normalized, divO, habs, qlogO, qscaleO, qscale, spec_normalize]

/-- The sliced float view of the elementwise pipeline is exactly the
spec's elementwise rotation-vector data. -/
theorem rotation_vector_data_eq (l : List (Quat ℝ)) :
    drop_scalar_components
        (quatsToFloats (l.map (fun q => qscaleO 2 (qlogO (np_normalized q))))) =
      spec_rotation_vector_data l := by
  induction l with
  | nil => rfl
  | cons q rest ih =>
    rw [List.map_cons, two_log_normalized_elem q]
    by_cases h : normSq q = 0
    · rw [if_pos h]
      simp only [quatsToFloats, drop_scalar_components, spec_rotation_vector_data,
        if_pos h, List.cons_append, List.nil_append]
      rw [ih]
    · rw [if_neg h]
      simp only [quatsToFloats, drop_scalar_components, spec_rotation_vector_data,
        if_neg h, List.cons_append, List.nil_append]
      rw [ih]

/-- The claim's shape assertion fails at a scalar input: the output has
shape `(1, 3)` (via the `atleast_1d` promotion inside `as_float_array`),
not the `q.shape + (3,) = (3,)` the claim requires. -/
theorem c7_rotation_vector_shape_counterexample :
    (as_rotation_vector (QArrayInput.scalar (⟨1, 0, 0, 0⟩ : Quat ℝ))).shape = [1, 3] ∧
      (as_rotation_vector (QArrayInput.scalar (⟨1, 0, 0, 0⟩ : Quat ℝ))).shape ≠ [3] := by
  have h13 : (as_rotation_vector (QArrayInput.scalar (⟨1, 0, 0, 0⟩ : Quat ℝ))).shape =
      [1, 3] := rfl
  exact ⟨h13, by rw [h13]; decide⟩

/-- C7 (amended): `as_rotation_vector` raises no error; for an input
array with at least one dimension the output has shape
`q.shape + (3,)` and holds, elementwise, the vector part of
`2·log(normalize(q))`, with NaN components exactly at zero-norm
elements; a scalar (0-dimensional) input is first promoted by
`atleast_1d` inside `as_float_array`, so its output has shape `(1, 3)`
(holding the same three values: NaN at zero norm, the vector part of
`2·log(normalize(q))` otherwise). -/
theorem c7_rotation_vector_amended (a : NDQuatArray ℝ) (q0 : Quat ℝ)
    (h : a.shape ≠ []) :
    (as_rotation_vector (QArrayInput.arr a)).shape = a.shape ++ [3] ∧
    (as_rotation_vector (QArrayInput.arr a)).data = spec_rotation_vector_data a.data ∧
    (as_rotation_vector (QArrayInput.scalar q0)).shape = [1, 3] ∧
    (normSq q0 = 0 →
      (as_rotation_vector (QArrayInput.scalar q0)).data = [none, none, none]) ∧
    (normSq q0 ≠ 0 →
      (as_rotation_vector (QArrayInput.scalar q0)).data =
        [some ((qscale 2 (qlog (spec_normalize q0))).x),
         some ((qscale 2 (qlog (spec_normalize q0))).y),
         some ((qscale 2 (qlog (spec_normalize q0))).z)]) := by
  have harr : as_float_array
      (QArrayInput.arr (⟨a.shape, a.data.map (fun q => qscaleO 2 (qlogO (np_normalized q)))⟩ :
        NDQuatArray (Option ℝ))) =
      ⟨a.shape ++ [4],
        quatsToFloats (a.data.map (fun q => qscaleO 2 (qlogO (np_normalized q))))⟩ := by
    simp only [as_float_array, atleast_1d, if_neg h]
  have hscalar : ∀ u : Quat (Option ℝ),
      as_float_array (QArrayInput.scalar u) = ⟨[1, 4], quatsToFloats [u]⟩ := by
    intro u
    simp [as_float_array, atleast_1d, quatsToFloats]
  refine ⟨?_, ?_, rfl, ?_, ?_⟩
  · simp only [as_rotation_vector, harr, slice_vector_part]
    rw [List.dropLast_concat]
  · simp only [as_rotation_vector, harr, slice_vector_part]
    exact rotation_vector_data_eq a.data
  · intro hz
    simp only [as_rotation_vector, hscalar, slice_vector_part]
    have := rotation_vector_data_eq [q0]
    simp only [List.map_cons, List.map_nil, spec_rotation_vector_data, if_pos hz,
      List.append_nil] at this
    exact this
  · intro hz
    simp only [as_rotation_vector, hscalar, slice_vector_part]
    have := rotation_vector_data_eq [q0]
    simp only [List.map_cons, List.map_nil, spec_rotation_vector_data, if_neg hz,
      List.append_nil] at this
    exact this

theorem c7_rotation_vector_amended_witness :
    (([1] : List Nat) ≠ []) ∧
    (as_rotation_vector (QArrayInput.arr (⟨[1], [⟨0, 0, 0, 0⟩]⟩ : NDQuatArray ℝ))).shape =
      [1] ++ [3] ∧
    (normSq (⟨0, 0, 0, 0⟩ : Quat ℝ) = 0 ∧
      (as_rotation_vector (QArrayInput.scalar (⟨0, 0, 0, 0⟩ : Quat ℝ))).data =
        [none, none, none]) ∧
    (normSq (⟨2, 0, 0, 0⟩ : Quat ℝ) ≠ 0 ∧
      (as_rotation_vector (QArrayInput.scalar (⟨2, 0, 0, 0⟩ : Quat ℝ))).data =
        [some ((qscale 2 (qlog (spec_normalize ⟨2, 0, 0, 0⟩))).x),
         some ((qscale 2 (qlog (spec_normalize ⟨2, 0, 0, 0⟩))).y),
         some ((qscale 2 (qlog (spec_normalize ⟨2, 0, 0, 0⟩))).z)]) := by
  have hne : ([1] : List Nat) ≠ [] := by decide
  have h0 : normSq (⟨0, 0, 0, 0⟩ : Quat ℝ) = 0 := by norm_num [normSq]
  have h2 : normSq (⟨2, 0, 0, 0⟩ : Quat ℝ) ≠ 0 := by norm_num [normSq]
  have t0 := c7_rotation_vector_amended ⟨[1], [⟨0, 0, 0, 0⟩]⟩ ⟨0, 0, 0, 0⟩ hne
  have t2 := c7_rotation_vector_amended ⟨[1], [⟨0, 0, 0, 0⟩]⟩ ⟨2, 0, 0, 0⟩ hne
  exact ⟨hne, t0.1, ⟨h0, t0.2.2.2.1 h0⟩, ⟨h2, t2.2.2.2.2 h2⟩⟩

/-- C8: for a nonzero quaternion, `as_euler_angles` returns exactly the
triple `(atan2(z,w)+atan2(-x,y), 2·acos(sqrt((w²+z²)/n)),
atan2(z,w)-atan2(-x,y))`; the array path applies the same formulas
elementwise. -/
theorem c8_euler_angles (q : Quat ℝ) (l : List (Quat ℝ)) (h : normSq q ≠ 0) :
    as_euler_angles q = spec_euler_angles q ∧
      as_euler_angles_array l = l.map spec_euler_angles := by
  have hq : ∀ p : Quat ℝ, as_euler_angles p = spec_euler_angles p := by
    intro p
    simp [as_euler_angles, spec_euler_angles, quatsToFloats]
  exact ⟨hq q, by simp [as_euler_angles_array, funext hq]⟩

theorem c8_euler_angles_witness :
    normSq (⟨1, 0, 0, 1⟩ : Quat ℝ) ≠ 0 ∧
      (as_euler_angles ⟨1, 0, 0, 1⟩ = spec_euler_angles ⟨1, 0, 0, 1⟩ ∧
        as_euler_angles_array [] = List.map spec_euler_angles []) := by
  have h : normSq (⟨1, 0, 0, 1⟩ : Quat ℝ) ≠ 0 := by norm_num [normSq]
  exact ⟨h, c8_euler_angles ⟨1, 0, 0, 1⟩ [] h⟩

/-- C10: `from_rotation_vector` applied to the zero 3-vector builds the
zero pure-vector quaternion and exponentiates it, giving exactly the
identity quaternion `(1, 0, 0, 0)` — no error and no undefined
component. -/
theorem c10_zero_rotation_vector :
    from_rotation_vector (0, 0, 0) = (⟨1, 0, 0, 0⟩ : Quat ℝ) := by
  unfold from_rotation_vector qexp
  norm_num [Real.exp_zero]

/-- On the rotation matrix of a unit quaternion `(w,x,y,z)`, the
Bar-Itzhack matrix acts as the rank-one map
`(4/3)·u₀u₀ᵀ - (1/3)·I` for `u₀ = (-x,-y,-z,w)`. -/
theorem K3_rot_unit_apply (w x y z : ℝ) (hq : w ^ 2 + x ^ 2 + y ^ 2 + z ^ 2 = 1)
    (t : Vec4) :
    mulVec4 (K3_of (rot_unit ⟨w, x, y, z⟩)) t =
      addV4 (smul4 (4 / 3 * dot4 ⟨-x, -y, -z, w⟩ t) ⟨-x, -y, -z, w⟩)
        (smul4 (-(1 / 3)) t) := by
  obtain ⟨t0, t1, t2, t3⟩ := t
  simp only [mulVec4, K3_of, rot_unit, addV4, smul4, dot4, Vec4.mk.injEq]
  refine ⟨by ring, by ring, by ring, ?_⟩
  linear_combination (-(4 / 3) * t3) * hq

/-- A unit eigenvector of the Bar-Itzhack matrix of an exact unit-quaternion
rotation matrix, belonging to an eigenvalue at least 1, is `±(-x,-y,-z,w)`. -/
theorem eig_vec_pm (w x y z : ℝ) (hq : w ^ 2 + x ^ 2 + y ^ 2 + z ^ 2 = 1)
    (v : Vec4) (lam : ℝ) (hv : normSq4 v = 1)
    (heig : mulVec4 (K3_of (rot_unit ⟨w, x, y, z⟩)) v = smul4 lam v)
    (hlam : 1 ≤ lam) :
    v = ⟨-x, -y, -z, w⟩ ∨ v = ⟨x, y, z, -w⟩ := by
  obtain ⟨v0, v1, v2, v3⟩ := v
  have hv' : v0 ^ 2 + v1 ^ 2 + v2 ^ 2 + v3 ^ 2 = 1 := hv
  have key := (K3_rot_unit_apply w x y z hq ⟨v0, v1, v2, v3⟩).symm.trans heig
  simp only [addV4, smul4, dot4, Vec4.mk.injEq] at key
  obtain ⟨e0, e1, e2, e3⟩ := key
  have hC : lam + 1 / 3 ≠ 0 := by intro hh; linarith
  by_cases hd : -x * v0 + -y * v1 + -z * v2 + w * v3 = 0
  · exfalso
    have h0 : (lam + 1 / 3) * v0 = 0 := by
      linear_combination (-1 : ℝ) * e0 + (4 / 3 * -x) * hd
    have h1 : (lam + 1 / 3) * v1 = 0 := by
      linear_combination (-1 : ℝ) * e1 + (4 / 3 * -y) * hd
    have h2 : (lam + 1 / 3) * v2 = 0 := by
      linear_combination (-1 : ℝ) * e2 + (4 / 3 * -z) * hd
    have h3 : (lam + 1 / 3) * v3 = 0 := by
      linear_combination (-1 : ℝ) * e3 + (4 / 3 * w) * hd
    have hv0 := (mul_eq_zero.mp h0).resolve_left hC
    have hv1 := (mul_eq_zero.mp h1).resolve_left hC
    have hv2 := (mul_eq_zero.mp h2).resolve_left hC
    have hv3 := (mul_eq_zero.mp h3).resolve_left hC
    rw [hv0, hv1, hv2, hv3] at hv'
    norm_num at hv'
  · have hS : (4 / 3) * (-x * v0 + -y * v1 + -z * v2 + w * v3) =
        (lam + 1 / 3) * (-x * v0 + -y * v1 + -z * v2 + w * v3) := by
      linear_combination (-x) * e0 + (-y) * e1 + (-z) * e2 + w * e3 +
        (-(4 / 3) * (-x * v0 + -y * v1 + -z * v2 + w * v3)) * hq
    have h' : (lam + 1 / 3 - 4 / 3) * (-x * v0 + -y * v1 + -z * v2 + w * v3) = 0 := by
      linear_combination (-1 : ℝ) * hS
    have hlam1 : lam = 1 := by
      rcases mul_eq_zero.mp h' with hm | hDz
      · linarith
      · exact absurd hDz hd
    subst hlam1
    have hDsq : (-x * v0 + -y * v1 + -z * v2 + w * v3) ^ 2 = 1 := by
      linear_combination ((3 : ℝ) / 4 * v0) * e0 + ((3 : ℝ) / 4 * v1) * e1 +
        ((3 : ℝ) / 4 * v2) * e2 + ((3 : ℝ) / 4 * v3) * e3 + hv'
    have hfact : (-x * v0 + -y * v1 + -z * v2 + w * v3 - 1) *
        (-x * v0 + -y * v1 + -z * v2 + w * v3 + 1) = 0 := by
      linear_combination hDsq
    have hc0 : v0 = (-x * v0 + -y * v1 + -z * v2 + w * v3) * -x := by
      linear_combination (-(3 : ℝ) / 4) * e0
    have hc1 : v1 = (-x * v0 + -y * v1 + -z * v2 + w * v3) * -y := by
      linear_combination (-(3 : ℝ) / 4) * e1
    have hc2 : v2 = (-x * v0 + -y * v1 + -z * v2 + w * v3) * -z := by
      linear_combination (-(3 : ℝ) / 4) * e2
    have hc3 : v3 = (-x * v0 + -y * v1 + -z * v2 + w * v3) * w := by
      linear_combination (-(3 : ℝ) / 4) * e3
    rcases mul_eq_zero.mp hfact with h1 | h1
    · have hD1 : -x * v0 + -y * v1 + -z * v2 + w * v3 = 1 := by linarith
      left
      rw [Vec4.mk.injEq]
      exact ⟨by rw [hc0, hD1]; ring, by rw [hc1, hD1]; ring,
             by rw [hc2, hD1]; ring, by rw [hc3, hD1]; ring⟩
    · have hD1 : -x * v0 + -y * v1 + -z * v2 + w * v3 = -1 := by linarith
      right
      rw [Vec4.mk.injEq]
      exact ⟨by rw [hc0, hD1]; ring, by rw [hc1, hD1]; ring,
             by rw [hc2, hD1]; ring, by rw [hc3, hD1]; ring⟩

/-- Normalizing the scaled unit quaternion `4s·(w,x,y,z)` by its
Euclidean norm recovers `(w,x,y,z)` up to the sign of `s`. -/
theorem normalize_scaled (w x y z s : ℝ) (hq : w ^ 2 + x ^ 2 + y ^ 2 + z ^ 2 = 1)
    (hs : s ≠ 0) :
    (⟨4*s*w / Real.sqrt (normSq4 ⟨4*s*w, 4*s*x, 4*s*y, 4*s*z⟩),
      4*s*x / Real.sqrt (normSq4 ⟨4*s*w, 4*s*x, 4*s*y, 4*s*z⟩),
      4*s*y / Real.sqrt (normSq4 ⟨4*s*w, 4*s*x, 4*s*y, 4*s*z⟩),
      4*s*z / Real.sqrt (normSq4 ⟨4*s*w, 4*s*x, 4*s*y, 4*s*z⟩)⟩ : Quat ℝ) =
      if 0 < s then (⟨w, x, y, z⟩ : Quat ℝ) else qneg ⟨w, x, y, z⟩ := by
  have hns : normSq4 ⟨4*s*w, 4*s*x, 4*s*y, 4*s*z⟩ = (4*|s|) ^ 2 := by
    simp only [normSq4]
    have habs2 : (4 * |s|) ^ 2 = 16 * s ^ 2 := by
      rw [mul_pow, sq_abs]
      ring
    rw [habs2]
    linear_combination (16 * s ^ 2) * hq
  have hsq : Real.sqrt (normSq4 ⟨4*s*w, 4*s*x, 4*s*y, 4*s*z⟩) = 4*|s| := by
    rw [hns, Real.sqrt_sq (by positivity)]
  rw [hsq]
  rcases hs.lt_or_lt with hneg | hpos
  · rw [if_neg (not_lt.mpr hneg.le), abs_of_neg hneg]
    have h4 : (4 : ℝ) * -s ≠ 0 := by
      intro hh
      apply hs
      linarith [hh]
    simp only [qneg, Quat.mk.injEq]
    refine ⟨?_, ?_, ?_, ?_⟩ <;> field_simp <;> ring
  · rw [if_pos hpos, abs_of_pos hpos]
    have h4 : (4 : ℝ) * s ≠ 0 := by positivity
    simp only [Quat.mk.injEq]
    refine ⟨?_, ?_, ?_, ?_⟩ <;> field_simp

/-- `argmax` branch characterisations. -/
theorem argmax4_eq_zero {d : Vec4} (h : d.c1 ≤ d.c0 ∧ d.c2 ≤ d.c0 ∧ d.c3 ≤ d.c0) :
    argmax4 d = 0 := by
  unfold argmax4
  rw [if_pos h]

theorem argmax4_eq_one {d : Vec4} (h0 : ¬(d.c1 ≤ d.c0 ∧ d.c2 ≤ d.c0 ∧ d.c3 ≤ d.c0))
    (h1 : d.c2 ≤ d.c1 ∧ d.c3 ≤ d.c1) : argmax4 d = 1 := by
  unfold argmax4
  rw [if_neg h0, if_pos h1]

theorem argmax4_eq_two {d : Vec4} (h0 : ¬(d.c1 ≤ d.c0 ∧ d.c2 ≤ d.c0 ∧ d.c3 ≤ d.c0))
    (h1 : ¬(d.c2 ≤ d.c1 ∧ d.c3 ≤ d.c1)) (h2 : d.c3 ≤ d.c2) : argmax4 d = 2 := by
  unfold argmax4
  rw [if_neg h0, if_neg h1, if_pos h2]

theorem argmax4_eq_three {d : Vec4} (h0 : ¬(d.c1 ≤ d.c0 ∧ d.c2 ≤ d.c0 ∧ d.c3 ≤ d.c0))
    (h1 : ¬(d.c2 ≤ d.c1 ∧ d.c3 ≤ d.c1)) (h2 : ¬ d.c3 ≤ d.c2) : argmax4 d = 3 := by
  unfold argmax4
  rw [if_neg h0, if_neg h1, if_neg h2]

/-- The four candidate formulas selected by `argmax`. -/
theorem direct_candidate_of_argmax0 {m : Mat3 ℝ} (h : argmax4 (diagonals m) = 0) :
    direct_candidate m =
      ⟨m.m21 - m.m12, 1 + m.m00 - m.m11 - m.m22, m.m01 + m.m10, m.m02 + m.m20⟩ := by
  unfold direct_candidate
  rw [h]

theorem direct_candidate_of_argmax1 {m : Mat3 ℝ} (h : argmax4 (diagonals m) = 1) :
    direct_candidate m =
      ⟨m.m02 - m.m20, m.m10 + m.m01, 1 - m.m00 + m.m11 - m.m22, m.m12 + m.m21⟩ := by
  unfold direct_candidate
  rw [h]

theorem direct_candidate_of_argmax2 {m : Mat3 ℝ} (h : argmax4 (diagonals m) = 2) :
    direct_candidate m =
      ⟨m.m10 - m.m01, m.m20 + m.m02, m.m21 + m.m12, 1 - m.m00 - m.m11 + m.m22⟩ := by
  unfold direct_candidate
  rw [h]

theorem direct_candidate_of_argmax3 {m : Mat3 ℝ} (h : argmax4 (diagonals m) = 3) :
    direct_candidate m =
      ⟨1 + m.m00 + m.m11 + m.m22, m.m21 - m.m12, m.m02 - m.m20, m.m10 - m.m01⟩ := by
  unfold direct_candidate
  rw [h]

/-- On the exact rotation matrix of a unit quaternion, the direct
(Markley) path returns that quaternion up to global sign: whichever
branch `argmax` selects, the candidate is `4s·(w,x,y,z)` for a nonzero
selected component `s`, and normalization leaves `±(w,x,y,z)`. -/
theorem direct_rot_unit (w x y z : ℝ) (hq : w ^ 2 + x ^ 2 + y ^ 2 + z ^ 2 = 1) :
    from_rotation_matrix_direct (rot_unit ⟨w, x, y, z⟩) = ⟨w, x, y, z⟩ ∨
      from_rotation_matrix_direct (rot_unit ⟨w, x, y, z⟩) = qneg ⟨w, x, y, z⟩ := by
  by_cases h0 : (diagonals (rot_unit ⟨w, x, y, z⟩)).c1 ≤ (diagonals (rot_unit ⟨w, x, y, z⟩)).c0 ∧
      (diagonals (rot_unit ⟨w, x, y, z⟩)).c2 ≤ (diagonals (rot_unit ⟨w, x, y, z⟩)).c0 ∧
      (diagonals (rot_unit ⟨w, x, y, z⟩)).c3 ≤ (diagonals (rot_unit ⟨w, x, y, z⟩)).c0
  · -- branch 0: m00 is the first maximum, so x² dominates
    have a1 : (1 : ℝ) - 2*(x^2 + z^2) ≤ 1 - 2*(y^2 + z^2) := h0.1
    have a2 : (1 : ℝ) - 2*(x^2 + y^2) ≤ 1 - 2*(y^2 + z^2) := h0.2.1
    have a3 : ((1 : ℝ) - 2*(y^2 + z^2)) + (1 - 2*(x^2 + z^2)) + (1 - 2*(x^2 + y^2)) ≤
        1 - 2*(y^2 + z^2) := h0.2.2
    have hs : x ≠ 0 := by
      intro hx0
      have e1 : y^2 ≤ x^2 := by linarith
      have e2 : z^2 ≤ x^2 := by linarith
      have e3 : w^2 ≤ x^2 := by linarith
      have e4 : x^2 = 0 := by rw [hx0]; ring
      linarith
    have hc : direct_candidate (rot_unit ⟨w, x, y, z⟩) = ⟨4*x*w, 4*x*x, 4*x*y, 4*x*z⟩ := by
      rw [direct_candidate_of_argmax0 (argmax4_eq_zero h0), Vec4.mk.injEq]
      refine ⟨?_, ?_, ?_, ?_⟩ <;> simp only [rot_unit] <;> ring
    have hnorm := normalize_scaled w x y z x hq hs
    simp only [from_rotation_matrix_direct, hc]
    by_cases hsp : 0 < x
    · left; rw [if_pos hsp] at hnorm; exact hnorm
    · right; rw [if_neg hsp] at hnorm; exact hnorm
  · by_cases h1 : (diagonals (rot_unit ⟨w, x, y, z⟩)).c2 ≤ (diagonals (rot_unit ⟨w, x, y, z⟩)).c1 ∧
        (diagonals (rot_unit ⟨w, x, y, z⟩)).c3 ≤ (diagonals (rot_unit ⟨w, x, y, z⟩)).c1
    · -- branch 1: m11 is the first maximum, so y² dominates
      have b1 : (1 : ℝ) - 2*(x^2 + y^2) ≤ 1 - 2*(x^2 + z^2) := h1.1
      have b2 : ((1 : ℝ) - 2*(y^2 + z^2)) + (1 - 2*(x^2 + z^2)) + (1 - 2*(x^2 + y^2)) ≤
          1 - 2*(x^2 + z^2) := h1.2
      have hx2y2 : x^2 < y^2 := by
        rw [not_and_or, not_and_or] at h0
        rcases h0 with hA | hB | hC
        · have hA' : (1 : ℝ) - 2*(y^2 + z^2) < 1 - 2*(x^2 + z^2) := not_le.mp hA
          linarith
        · have hB' : (1 : ℝ) - 2*(y^2 + z^2) < 1 - 2*(x^2 + y^2) := not_le.mp hB
          linarith
        · have hC' : (1 : ℝ) - 2*(y^2 + z^2) <
              ((1 : ℝ) - 2*(y^2 + z^2)) + (1 - 2*(x^2 + z^2)) + (1 - 2*(x^2 + y^2)) :=
            not_le.mp hC
          linarith
      have hs : y ≠ 0 := by
        intro hy0
        rw [hy0] at hx2y2
        nlinarith [sq_nonneg x]
      have hc : direct_candidate (rot_unit ⟨w, x, y, z⟩) = ⟨4*y*w, 4*y*x, 4*y*y, 4*y*z⟩ := by
        rw [direct_candidate_of_argmax1 (argmax4_eq_one h0 h1), Vec4.mk.injEq]
        refine ⟨?_, ?_, ?_, ?_⟩ <;> simp only [rot_unit] <;> ring
      have hnorm := normalize_scaled w x y z y hq hs
      simp only [from_rotation_matrix_direct, hc]
      by_cases hsp : 0 < y
      · left; rw [if_pos hsp] at hnorm; exact hnorm
      · right; rw [if_neg hsp] at hnorm; exact hnorm
    · by_cases h2 : (diagonals (rot_unit ⟨w, x, y, z⟩)).c3 ≤ (diagonals (rot_unit ⟨w, x, y, z⟩)).c2
      · -- branch 2: m22 is the first maximum, so z² dominates
        have c1 : ((1 : ℝ) - 2*(y^2 + z^2)) + (1 - 2*(x^2 + z^2)) + (1 - 2*(x^2 + y^2)) ≤
            1 - 2*(x^2 + y^2) := h2
        have hy2z2 : y^2 < z^2 := by
          rw [not_and_or] at h1
          rcases h1 with hA | hB
          · have hA' : (1 : ℝ) - 2*(x^2 + z^2) < 1 - 2*(x^2 + y^2) := not_le.mp hA
            linarith
          · have hB' : (1 : ℝ) - 2*(x^2 + z^2) <
                ((1 : ℝ) - 2*(y^2 + z^2)) + (1 - 2*(x^2 + z^2)) + (1 - 2*(x^2 + y^2)) :=
              not_le.mp hB
            linarith
        have hs : z ≠ 0 := by
          intro hz0
          rw [hz0] at hy2z2
          nlinarith [sq_nonneg y]
        have hc : direct_candidate (rot_unit ⟨w, x, y, z⟩) = ⟨4*z*w, 4*z*x, 4*z*y, 4*z*z⟩ := by
          rw [direct_candidate_of_argmax2 (argmax4_eq_two h0 h1 h2), Vec4.mk.injEq]
          refine ⟨?_, ?_, ?_, ?_⟩ <;> simp only [rot_unit] <;> ring
        have hnorm := normalize_scaled w x y z z hq hs
        simp only [from_rotation_matrix_direct, hc]
        by_cases hsp : 0 < z
        · left; rw [if_pos hsp] at hnorm; exact hnorm
        · right; rw [if_neg hsp] at hnorm; exact hnorm
      · -- branch 3: the trace is the maximum, so w² dominates
        have h2' : (1 : ℝ) - 2*(x^2 + y^2) <
            ((1 : ℝ) - 2*(y^2 + z^2)) + (1 - 2*(x^2 + z^2)) + (1 - 2*(x^2 + y^2)) :=
          not_le.mp h2
        have hz2w2 : z^2 < w^2 := by linarith
        have hs : w ≠ 0 := by
          intro hw0
          rw [hw0] at hz2w2
          nlinarith [sq_nonneg z]
        have hc : direct_candidate (rot_unit ⟨w, x, y, z⟩) = ⟨4*w*w, 4*w*x, 4*w*y, 4*w*z⟩ := by
          rw [direct_candidate_of_argmax3 (argmax4_eq_three h0 h1 h2), Vec4.mk.injEq]
          refine ⟨?_, ?_, ?_, ?_⟩
          · simp only [rot_unit]
            linear_combination (-4 : ℝ) * hq
          · simp only [rot_unit]; ring
          · simp only [rot_unit]; ring
          · simp only [rot_unit]; ring
        have hnorm := normalize_scaled w x y z w hq hs
        simp only [from_rotation_matrix_direct, hc]
        by_cases hsp : 0 < w
        · left; rw [if_pos hsp] at hnorm; exact hnorm
        · right; rw [if_neg hsp] at hnorm; exact hnorm

/-- C3: on the rotation matrix of a unit quaternion (the standard
parametrisation of orthogonal rotation matrices), the eigen-based path —
applied to any unit eigenvector of the Bar-Itzhack matrix for its
largest eigenvalue, which is what the host eigensolver returns — and the
direct fallback path both produce quaternions of squared norm exactly 1,
and the two results agree up to a global sign. -/
theorem c3_from_rotation_matrix_agreement (q : Quat ℝ) (v : Vec4) (lam : ℝ)
    (hq : normSq q = 1) (hv : normSq4 v = 1)
    (heig : mulVec4 (K3_of (rot_unit q)) v = smul4 lam v)
    (hmax : ∀ (mu : ℝ) (u : Vec4), u ≠ ⟨0, 0, 0, 0⟩ →
        mulVec4 (K3_of (rot_unit q)) u = smul4 mu u → mu ≤ lam) :
    normSq (from_rotation_matrix_eig v) = 1 ∧
    normSq (from_rotation_matrix_direct (rot_unit q)) = 1 ∧
    (from_rotation_matrix_eig v = from_rotation_matrix_direct (rot_unit q) ∨
     from_rotation_matrix_eig v = qneg (from_rotation_matrix_direct (rot_unit q))) := by
  obtain ⟨w, x, y, z⟩ := q
  have hq' : w ^ 2 + x ^ 2 + y ^ 2 + z ^ 2 = 1 := hq
  have hu0ne : (⟨-x, -y, -z, w⟩ : Vec4) ≠ ⟨0, 0, 0, 0⟩ := by
    intro hcc
    rw [Vec4.mk.injEq] at hcc
    obtain ⟨f1, f2, f3, f4⟩ := hcc
    rw [neg_eq_zero] at f1 f2 f3
    rw [f1, f2, f3, f4] at hq'
    norm_num at hq'
  have hKu : mulVec4 (K3_of (rot_unit ⟨w, x, y, z⟩)) ⟨-x, -y, -z, w⟩ =
      smul4 1 ⟨-x, -y, -z, w⟩ := by
    rw [K3_rot_unit_apply w x y z hq']
    have hdot : dot4 ⟨-x, -y, -z, w⟩ ⟨-x, -y, -z, w⟩ = 1 := by
      simp only [dot4]
      linear_combination hq'
    rw [hdot]
    simp only [addV4, smul4, Vec4.mk.injEq]
    refine ⟨by ring, by ring, by ring, by ring⟩
  have hlam : 1 ≤ lam := hmax 1 ⟨-x, -y, -z, w⟩ hu0ne hKu
  have heigv := eig_vec_pm w x y z hq' v lam hv heig hlam
  have hdir := direct_rot_unit w x y z hq'
  refine ⟨?_, ?_, ?_⟩
  · rcases heigv with he | he <;> rw [he] <;>
      simp only [from_rotation_matrix_eig, normSq, neg_neg] <;>
      linear_combination hq'
  · rcases hdir with hd | hd <;> rw [hd] <;> simp only [normSq, qneg] <;>
      linear_combination hq'
  · rcases heigv with he | he <;> rcases hdir with hd | hd <;> rw [he, hd]
    · left
      simp [from_rotation_matrix_eig]
    · right
      simp [from_rotation_matrix_eig, qneg]
    · right
      simp [from_rotation_matrix_eig, qneg]
    · left
      simp [from_rotation_matrix_eig, qneg]

theorem c3_from_rotation_matrix_agreement_witness :
    normSq (from_rotation_matrix_eig ⟨0, 0, 0, 1⟩) = 1 ∧
    normSq (from_rotation_matrix_direct (rot_unit (⟨1, 0, 0, 0⟩ : Quat ℝ))) = 1 ∧
    (from_rotation_matrix_eig ⟨0, 0, 0, 1⟩ =
        from_rotation_matrix_direct (rot_unit (⟨1, 0, 0, 0⟩ : Quat ℝ)) ∨
     from_rotation_matrix_eig ⟨0, 0, 0, 1⟩ =
        qneg (from_rotation_matrix_direct (rot_unit (⟨1, 0, 0, 0⟩ : Quat ℝ)))) := by
  have hq : normSq (⟨1, 0, 0, 0⟩ : Quat ℝ) = 1 := by norm_num [normSq]
  have hv : normSq4 ⟨0, 0, 0, 1⟩ = 1 := by norm_num [normSq4]
  have heig : mulVec4 (K3_of (rot_unit (⟨1, 0, 0, 0⟩ : Quat ℝ))) ⟨0, 0, 0, 1⟩ =
      smul4 1 ⟨0, 0, 0, 1⟩ := by
    simp only [mulVec4, K3_of, rot_unit, smul4, Vec4.mk.injEq]
    norm_num
  have hmax : ∀ (mu : ℝ) (u : Vec4), u ≠ ⟨0, 0, 0, 0⟩ →
      mulVec4 (K3_of (rot_unit (⟨1, 0, 0, 0⟩ : Quat ℝ))) u = smul4 mu u → mu ≤ 1 := by
    intro mu u hne hKu
    obtain ⟨u0, u1, u2, u3⟩ := u
    simp only [mulVec4, K3_of, rot_unit, smul4, Vec4.mk.injEq] at hKu
    obtain ⟨g0, g1, g2, g3⟩ := hKu
    by_cases h3 : u3 = 0
    · have hone : u0 ≠ 0 ∨ u1 ≠ 0 ∨ u2 ≠ 0 := by
        by_contra hcon
        push_neg at hcon
        exact hne (by rw [Vec4.mk.injEq]; exact ⟨hcon.1, hcon.2.1, hcon.2.2, h3⟩)
      rcases hone with h | h | h
      · have hz : (mu + 1 / 3) * u0 = 0 := by linear_combination (-1 : ℝ) * g0
        rcases mul_eq_zero.mp hz with hm | hh
        · linarith
        · exact absurd hh h
      · have hz : (mu + 1 / 3) * u1 = 0 := by linear_combination (-1 : ℝ) * g1
        rcases mul_eq_zero.mp hz with hm | hh
        · linarith
        · exact absurd hh h
      · have hz : (mu + 1 / 3) * u2 = 0 := by linear_combination (-1 : ℝ) * g2
        rcases mul_eq_zero.mp hz with hm | hh
        · linarith
        · exact absurd hh h
    · have hz : (mu - 1) * u3 = 0 := by linear_combination (-1 : ℝ) * g3
      rcases mul_eq_zero.mp hz with hm | hh
      · linarith
      · exact absurd hh h3
  exact c3_from_rotation_matrix_agreement ⟨1, 0, 0, 0⟩ ⟨0, 0, 0, 1⟩ 1 hq hv heig hmax

end NumpyQuaternion
